import Mathlib

/-!
Verification of the `fio_hashmap.h` simple ordered hash table

A shallow embedding of the hash-table engine of `fio_hashmap.h`
(`fio_hash_new`, `fio_hash_seek`, `fio_hash_find`, `fio_hash_insert`,
`fio_hash_rehash`, `fio_hash_each`, `fio_hash_count`, `fio_hash_capa`
and the container-list helpers), together with proofs about its
seek/insert/delete/rehash/iteration behaviour.

Modelling conventions:
* `uintptr_t` values (keys, counters, masks) are `Nat`.  All quantities kept
  by the table stay far below `2 ^ 64` in every state considered here, so
  machine wrap-around never matters and is not modelled.
* `void *` object handles are `Nat`, with `0` standing for the C `NULL`.
* Heap addresses of list nodes are modelled by numeric identities handed out
  by an allocation counter (`nextId`); `0` stands for `NULL`.
* The circular doubly linked sentinel list `h->items` is modelled by the Lean
  list of its nodes in link order (`items.next` first, `items.prev` last).
* Unbounded C loops (`while (!info) { rehash; seek; }` in `fio_hash_insert`
  and the `goto retry_rehashing` loop in `fio_hash_rehash`) take an explicit
  fuel argument and return `none` when the fuel runs out.
-/

set_option maxHeartbeats 1000000

namespace FioHash

/-- Constant `HASH_INITIAL_CAPACITY` (16, a power of 2). -/
def HASH_INITIAL_CAPACITY : Nat := 16

/-- Constant `FIO_HASH_MAX_MAP_SEEK` (256). -/
def FIO_HASH_MAX_MAP_SEEK : Nat := 256

/-- One bucket-map cell, `fio_hash_map_info_s`: a copy of the key and a
reference to the container node (a node identity, `0` = `NULL`). -/
structure MapInfo where
  key : Nat
  container : Nat
deriving DecidableEq, Repr

instance : Inhabited MapInfo := ⟨⟨0, 0⟩⟩

/-- One container node of the ordered list, `fio_hash_ls_s`: its identity
(standing for the node's heap address), the key copy and the stored object
(`0` = `NULL`).  The `prev`/`next` links are represented by the node's
position in the `items` list of the table. -/
structure Node where
  id : Nat
  key : Nat
  obj : Nat
deriving DecidableEq, Repr

/-- The table `fio_hash_s`.  `data`/`capa` model `map.data`/`map.capa`; `items` is the
ordered container list (head = `items.next`, last = `items.prev`); `nextId`
is the allocator counter producing fresh node identities. -/
structure HashS where
  count : Nat
  mask : Nat
  items : List Node
  capa : Nat
  data : List MapInfo
  nextId : Nat
deriving DecidableEq, Repr

/-- Function `fio_hash_new`: mask = 15, a zeroed 16-slot map, empty list. -/
def fio_hash_new : HashS :=
  { count := 0
    mask := HASH_INITIAL_CAPACITY - 1
    items := []
    capa := HASH_INITIAL_CAPACITY
    data := List.replicate HASH_INITIAL_CAPACITY ⟨0, 0⟩
    nextId := 1 }

/-- The slot at index `j` (reads of `hash->map.data[j]`; all indices produced
by the code are `< capa = data.length`, the default is never reached in any
state with `data.length = capa`). -/
def slotAt (h : HashS) (j : Nat) : MapInfo :=
  h.data.getD j ⟨0, 0⟩

/-- The loop guard `(!pos->key || pos->key == key)` of `fio_hash_seek`. -/
def slotMatchB (h : HashS) (key j : Nat) : Bool :=
  (slotAt h j).key == 0 || (slotAt h j).key == key

/-- Function `fio_hash_map_cuckoo_steps`: `step * 3`. -/
def fio_hash_map_cuckoo_steps (step : Nat) : Nat := step * 3

/-- The index written to `pos` at the bottom of the seek loop with counter
value `s`: `((key & mask) + fio_hash_map_cuckoo_steps(s)) & mask`. -/
def probeIndex (h : HashS) (key s : Nat) : Nat :=
  ((key &&& h.mask) + fio_hash_map_cuckoo_steps s) &&& h.mask

/-- The seek loop bound `limit`:
`capa > FIO_HASH_MAX_MAP_SEEK ? FIO_HASH_MAX_MAP_SEEK : capa >> 1`. -/
def seekLimit (h : HashS) : Nat :=
  if h.capa > FIO_HASH_MAX_MAP_SEEK then FIO_HASH_MAX_MAP_SEEK else h.capa / 2

/-- The `while (i < limit)` loop of `fio_hash_seek`; `pos` is the current
probe index, `i` the loop counter, `fuel = limit - i` the remaining
iterations.  Note the post-increment: the next position is computed from the
current `i` (`fio_hash_map_cuckoo_steps(i++)`). -/
def fio_hash_seek_aux (h : HashS) (key : Nat) : Nat → Nat → Nat → Option Nat
  | _, _, 0 => none
  | pos, i, fuel + 1 =>
    if slotMatchB h key pos then some pos
    else fio_hash_seek_aux h key (probeIndex h key i) (i + 1) fuel

/-- Function `fio_hash_seek`: starts at `key & mask` with `i = 0`; returns the slot
index, or `none` for the C `NULL`. -/
def fio_hash_seek (h : HashS) (key : Nat) : Option Nat :=
  fio_hash_seek_aux h key (key &&& h.mask) 0 (seekLimit h)

/-- Same loop as `fio_hash_seek_aux`, recording the sequence of slot indices
inspected by the guard, in order. -/
def fio_hash_seek_trace_aux (h : HashS) (key : Nat) : Nat → Nat → Nat → List Nat
  | _, _, 0 => []
  | pos, i, fuel + 1 =>
    if slotMatchB h key pos then [pos]
    else pos :: fio_hash_seek_trace_aux h key (probeIndex h key i) (i + 1) fuel

/-- The slot indices inspected by `fio_hash_seek h key`, in order. -/
def fio_hash_seek_trace (h : HashS) (key : Nat) : List Nat :=
  fio_hash_seek_trace_aux h key (key &&& h.mask) 0 (seekLimit h)

/-- Dereference a container reference: the `obj` of the node whose identity
is `cid` (`info->container->obj`).  In every state used here a nonzero `cid`
stored in a slot refers to a node present in `items`. -/
def containerObj (h : HashS) (cid : Nat) : Nat :=
  match h.items.find? (fun n => n.id == cid) with
  | some n => n.obj
  | none => 0

/-- Function `fio_hash_find`: `NULL` (`0`) if seek fails or the slot has no container,
else the referenced node's object. -/
def fio_hash_find (h : HashS) (key : Nat) : Nat :=
  match fio_hash_seek h key with
  | none => 0
  | some j =>
    if (slotAt h j).container == 0 then 0 else containerObj h (slotAt h j).container

/-- Function `fio_hash_ls_unshift(&hash->items, obj, key)`: push onto
`items.prev`, i.e. insert immediately before the sentinel — append at the
tail of the order. -/
def fio_hash_ls_unshift (items : List Node) (n : Node) : List Node :=
  items ++ [n]

/-- Function `fio_hash_ls_remove(node)` executes
`node->next->prev = node->prev->next; node->prev->next = node->next->prev;`.
On a well-formed list `node->prev->next` and `node->next->prev` are both
`node` itself, so each assignment rewrites a link to its current value and
the link structure is unchanged (proved at the pointer level in
`lsRemovePtr_wf_eq` below); the node is then `free`d while still linked.
Hence the node list is unchanged; the caller separately reads `node->obj`. -/
def fio_hash_ls_remove (items : List Node) : List Node :=
  items

/-- Write slot `j` of the bucket map (`*info = ...`). -/
def setSlot (h : HashS) (j : Nat) (s : MapInfo) : HashS :=
  { h with data := h.data.set j s }

/-- The write `info->container->obj = obj`: update the object of the node with
identity `cid`. -/
def replaceObj (items : List Node) (cid obj : Nat) : List Node :=
  items.map (fun n => if n.id == cid then { n with obj := obj } else n)

/-- The body of `fio_hash_insert` after `info` has been obtained, operating
on the slot index `j`: fresh insert / delete / replace. -/
def insertAt (h : HashS) (j : Nat) (key obj : Nat) : Nat × HashS :=
  if (slotAt h j).container == 0 then
    if obj == 0 then (0, h)
    else
      (0, { h with
              items := fio_hash_ls_unshift h.items ⟨h.nextId, key, obj⟩
              nextId := h.nextId + 1
              data := h.data.set j ⟨key, h.nextId⟩
              count := h.count + 1 })
  else
    if obj == 0 then
      (containerObj h (slotAt h j).container,
        { h with
            count := h.count - 1
            items := fio_hash_ls_remove h.items
            data := h.data.set j ⟨key, 0⟩ })
    else
      (containerObj h (slotAt h j).container,
        { h with items := replaceObj h.items (slotAt h j).container obj })

/-- The walk of `fio_hash_rehash` over the container list, re-seeking every
node against the current map and writing `{.key = pos->key, .container = pos}`;
`none` when a seek fails (the `goto retry_rehashing` case). -/
def rehashPlace : HashS → List Node → Option HashS
  | h, [] => some h
  | h, n :: rest =>
    match fio_hash_seek h n.key with
    | none => none
    | some j => rehashPlace (setSlot h j ⟨n.key, n.id⟩) rest

/-- The head of the `retry_rehashing` loop of `fio_hash_rehash`:
`mask = mask << 1 | 1; capa = mask + 1;` and a fresh zeroed map
(`free` + `calloc`). -/
def rehashGrow (h : HashS) : HashS :=
  { h with mask := (h.mask <<< 1) ||| 1
           capa := ((h.mask <<< 1) ||| 1) + 1
           data := List.replicate (((h.mask <<< 1) ||| 1) + 1) (⟨0, 0⟩ : MapInfo) }

/-- Function `fio_hash_rehash`, fuelled: double the mask, allocate a fresh zeroed map,
re-place every node of the container list; on a failed placement go back to
`retry_rehashing` (double again), until the fuel runs out. -/
def fio_hash_rehash : Nat → HashS → Option HashS
  | 0, _ => none
  | fuel + 1, h =>
    match rehashPlace (rehashGrow h) (rehashGrow h).items with
    | some h2 => some h2
    | none => fio_hash_rehash fuel (rehashGrow h)

/-- The `while (!info) { fio_hash_rehash(hash); info = fio_hash_seek(...); }`
loop of `fio_hash_insert`, fuelled. -/
def seekRetry (key : Nat) : Nat → HashS → Option (Nat × HashS)
  | 0, h =>
    match fio_hash_seek h key with
    | some j => some (j, h)
    | none => none
  | f + 1, h =>
    match fio_hash_seek h key with
    | some j => some (j, h)
    | none =>
      match fio_hash_rehash (f + 1) h with
      | none => none
      | some h' => seekRetry key f h'

/-- Function `fio_hash_insert(hash, key, obj)`: the returned pair is (old object,
new state); the result is `none` only when the rehash fuel is exhausted. -/
def fio_hash_insert (fuel : Nat) (h : HashS) (key obj : Nat) :
    Option (Nat × HashS) :=
  match fio_hash_seek h key with
  | some j => some (insertAt h j key obj)
  | none =>
    if obj == 0 then some (0, h)
    else
      match seekRetry key fuel h with
      | none => none
      | some (j, h1) => some (insertAt h1 j key obj)

/-- The first loop of `fio_hash_each`:
`while (pos != &hash->items && start_at > i) { pos = pos->next; ++i; }`. -/
def eachSkip (start_at : Nat) : List Node → Nat → List Node × Nat
  | [], i => ([], i)
  | n :: rest, i =>
    if start_at > i then eachSkip start_at rest (i + 1) else (n :: rest, i)

/-- The second loop of `fio_hash_each`:
`while (pos != &hash->items) { ++i; if (task(...) == -1) return i; ... }`. -/
def eachLoop (task : Nat → Nat → Int) : List Node → Nat → Nat
  | [], i => i
  | n :: rest, i =>
    if task n.key n.obj == -1 then i + 1 else eachLoop task rest (i + 1)

/-- Function `fio_hash_each(hash, start_at, task, arg)`; the opaque `arg` pointer is
absorbed into `task`. -/
def fio_hash_each (h : HashS) (start_at : Nat) (task : Nat → Nat → Int) : Nat :=
  if start_at ≥ h.count then h.count
  else eachLoop task (eachSkip start_at h.items 0).1 (eachSkip start_at h.items 0).2

/-- The nodes on which `eachLoop` invokes `task`, in order (including the
node whose visit returns the stop sentinel `-1`). -/
def eachLoopVisits (task : Nat → Nat → Int) : List Node → List Node
  | [] => []
  | n :: rest =>
    if task n.key n.obj == -1 then [n] else n :: eachLoopVisits task rest

/-- The nodes on which `fio_hash_each h start_at task` invokes `task`. -/
def eachVisits (h : HashS) (start_at : Nat) (task : Nat → Nat → Int) : List Node :=
  if start_at ≥ h.count then []
  else eachLoopVisits task (eachSkip start_at h.items 0).1

/-- Function `fio_hash_count` (on a non-`NULL` table). -/
def fio_hash_count (h : HashS) : Nat := h.count

/-- Function `fio_hash_capa` (on a non-`NULL` table). -/
def fio_hash_capa (h : HashS) : Nat := h.capa

/-- Run a sequence of `fio_hash_insert` calls, left to right. -/
def insertList (fuel : Nat) : HashS → List (Nat × Nat) → Option HashS
  | h, [] => some h
  | h, p :: rest =>
    match fio_hash_insert fuel h p.1 p.2 with
    | none => none
    | some q => insertList fuel q.2 rest

/-- The probe index asserted by the specification for step `s`:
`i_s = ((key & mask) + 3*s) & mask`; `specProbe h key n` is the list of the
first `n` of them, for `s = 0, 1, 2, ...`. -/
def specProbe (h : HashS) (key n : Nat) : List Nat :=
  (List.range n).map (probeIndex h key)

/-- Truncate a list of probe indices at the first one whose slot is empty or
holds `key` (keeping that index), as the specification's probe stops there. -/
def upToMatch (h : HashS) (key : Nat) : List Nat → List Nat
  | [] => []
  | j :: rest => if slotMatchB h key j then [j] else j :: upToMatch h key rest

/-- The probe visit sequence asserted by the specification: the indices
`i_0, i_1, i_2, ...` in order, up to and including the first index whose slot
is empty or holds `key`.  (This definition follows the spec's words, for
comparison with the code's `fio_hash_seek_trace`.) -/
def specSeekVisits (h : HashS) (key : Nat) : List Nat :=
  upToMatch h key (specProbe h key (seekLimit h))

/-! ## Pointer-level model of `fio_hash_ls_remove`

`fio_hash_ls_remove` manipulates raw `prev`/`next` pointers.  To justify the
list-level model above (`fio_hash_ls_remove items = items`), the two
assignments are reproduced here verbatim on a heap of prev/next records and
shown to change nothing on a well-formed list. -/

/-- The `prev`/`next` fields of one `fio_hash_ls_s` cell, at some address. -/
structure PtrNode where
  prev : Nat
  next : Nat
deriving DecidableEq, Repr

/-- The first of the two link assignments of `fio_hash_ls_remove(node)`,
executed on a heap `heap : address → PtrNode`:
`node->next->prev = node->prev->next;`. -/
def lsRemovePtrStep1 (heap : Nat → PtrNode) (node : Nat) : Nat → PtrNode :=
  fun a =>
    if a = (heap node).next then { heap a with prev := (heap (heap node).prev).next }
    else heap a

def lsRemovePtr (heap : Nat → PtrNode) (node : Nat) : Nat → PtrNode :=
  let h1 := lsRemovePtrStep1 heap node
  fun a =>
    if a = (h1 node).prev then { h1 a with next := (h1 (h1 node).next).prev }
    else h1 a

/-- The state invariant maintained by sequences of distinct-nonzero-key
insertions (no deletions) starting from `fio_hash_new`:

* structural facts about `data`, `capa`, `mask`, `count`;
* the container list holds pairwise distinct nonzero keys, pairwise distinct
  live identities and nonzero objects;
* every node of the container list is placed: seeking its key returns a slot
  holding exactly its key and its identity;
* every slot with a nonzero key copy references a node of the list with that
  key, and zero-key slots are fully empty. -/
structure ListInv (h : HashS) : Prop where
  data_len : h.data.length = h.capa
  capa_mask : h.capa = h.mask + 1
  capa_ge : 16 ≤ h.capa
  count_eq : h.count = h.items.length
  nextId_pos : 0 < h.nextId
  ids_pos : ∀ n ∈ h.items, 0 < n.id ∧ n.id < h.nextId
  ids_nodup : (h.items.map Node.id).Nodup
  keys_nz : ∀ n ∈ h.items, n.key ≠ 0
  objs_nz : ∀ n ∈ h.items, n.obj ≠ 0
  keys_nodup : (h.items.map Node.key).Nodup

/-- The bucket map holds exactly the nodes of `pl`, each placed where its
key's seek finds it. -/
structure MapPartial (h : HashS) (pl : List Node) : Prop where
  placed : ∀ n ∈ pl,
    ∃ j, fio_hash_seek h n.key = some j ∧ slotAt h j = ⟨n.key, n.id⟩
  slot_live : ∀ j < h.capa, (slotAt h j).key ≠ 0 →
    ∃ n ∈ pl, n.key = (slotAt h j).key ∧ n.id = (slotAt h j).container
  slot_empty : ∀ j < h.capa, (slotAt h j).key = 0 → (slotAt h j).container = 0

def StInv (h : HashS) : Prop :=
  ListInv h ∧ MapPartial h h.items

theorem ptrNodeExt {a b : PtrNode} (hp : a.prev = b.prev) (hn : a.next = b.next) :
    a = b := by
  cases a; cases b; simp_all

theorem lsRemovePtrStep1_wf (heap : Nat → PtrNode) (node : Nat)
    (hpn : (heap (heap node).prev).next = node)
    (hnp : (heap (heap node).next).prev = node) :
    lsRemovePtrStep1 heap node = heap := by
  funext a
  unfold lsRemovePtrStep1
  by_cases ha : a = (heap node).next
  · subst ha
    rw [if_pos rfl, hpn]
    exact ptrNodeExt (by rw [hnp]) rfl
  · rw [if_neg ha]

/-- On a well-formed list — `node->prev->next == node` and
`node->next->prev == node` — both assignments of `fio_hash_ls_remove`
rewrite a link to its current value, so the heap is unchanged: the node is
never spliced out.  This justifies modelling `fio_hash_ls_remove` as the
identity on the node list. -/
theorem lsRemovePtr_wf_eq (heap : Nat → PtrNode) (node : Nat)
    (hpn : (heap (heap node).prev).next = node)
    (hnp : (heap (heap node).next).prev = node) :
    ∀ a, lsRemovePtr heap node a = heap a := by
  intro a
  simp only [lsRemovePtr, lsRemovePtrStep1_wf heap node hpn hnp]
  by_cases ha : a = (heap node).prev
  · subst ha
    rw [if_pos rfl, hnp]
    exact ptrNodeExt rfl (by rw [hpn])
  · rw [if_neg ha]

/-! ## Bitwise and probe-sequence basics -/

theorem and_and_self (x m : Nat) : (x &&& m) &&& m = x &&& m := by
  apply Nat.eq_of_testBit_eq
  intro i
  simp [Nat.testBit_and, Bool.and_assoc]

theorem probeIndex_le_mask (h : HashS) (key s : Nat) : probeIndex h key s ≤ h.mask :=
  Nat.and_le_right

theorem probeIndex_zero (h : HashS) (key : Nat) :
    probeIndex h key 0 = key &&& h.mask := by
  simp [probeIndex, fio_hash_map_cuckoo_steps, and_and_self]

theorem probeIndex_congr (h h' : HashS) (key s : Nat) (hm : h'.mask = h.mask) :
    probeIndex h' key s = probeIndex h key s := by
  simp [probeIndex, hm]

theorem seekLimit_congr (h h' : HashS) (hc : h'.capa = h.capa) :
    seekLimit h' = seekLimit h := by
  simp [seekLimit, hc]

theorem specProbe_congr (h h' : HashS) (key n : Nat) (hm : h'.mask = h.mask) :
    specProbe h' key n = specProbe h key n := by
  have hp : probeIndex h' key = probeIndex h key :=
    funext (fun s => probeIndex_congr h h' key s hm)
  simp [specProbe, hp]

/-! ## Characterisation of `fio_hash_seek` as a first-match search -/

theorem seek_aux_eq_find? (h : HashS) (key : Nat) :
    ∀ (fuel i : Nat),
      fio_hash_seek_aux h key (probeIndex h key i) (i + 1) fuel =
        (List.map (probeIndex h key) (List.range' i fuel)).find?
          (fun j => slotMatchB h key j) := by
  intro fuel
  induction fuel with
  | zero => intro i; simp [fio_hash_seek_aux]
  | succ f ih =>
    intro i
    rw [List.range'_succ, List.map_cons]
    by_cases hm : slotMatchB h key (probeIndex h key i)
    · rw [List.find?_cons_of_pos _ hm]
      simp [fio_hash_seek_aux, hm]
    · rw [List.find?_cons_of_neg _ hm]
      rw [show fio_hash_seek_aux h key (probeIndex h key i) (i + 1) (f + 1) =
            fio_hash_seek_aux h key (probeIndex h key (i + 1)) (i + 1 + 1) f by
        simp [fio_hash_seek_aux, hm]]
      simpa using ih (i + 1)

theorem fio_hash_seek_eq_find? (h : HashS) (key : Nat) (hl : 2 ≤ seekLimit h) :
    fio_hash_seek h key =
      (specProbe h key (seekLimit h - 1)).find? (fun j => slotMatchB h key j) := by
  obtain ⟨l, hl2⟩ : ∃ l, seekLimit h = l + 2 := ⟨seekLimit h - 2, by omega⟩
  rw [fio_hash_seek, hl2]
  rw [show l + 2 - 1 = l + 1 by omega] at *
  rw [specProbe, List.range_eq_range', List.range'_succ, List.map_cons,
    probeIndex_zero]
  by_cases hm : slotMatchB h key (key &&& h.mask)
  · rw [List.find?_cons_of_pos _ hm]
    simp [fio_hash_seek_aux, hm]
  · rw [List.find?_cons_of_neg _ hm]
    rw [show fio_hash_seek_aux h key (key &&& h.mask) 0 (l + 2) =
          fio_hash_seek_aux h key (probeIndex h key 0) 1 (l + 1) by
      simp [fio_hash_seek_aux, hm]]
    rw [seek_aux_eq_find? h key (l + 1) 0]
    rw [List.range'_succ, List.map_cons, probeIndex_zero,
      List.find?_cons_of_neg _ hm]

theorem seek_aux_le_mask (h : HashS) (key : Nat) :
    ∀ (fuel pos i j : Nat), pos ≤ h.mask →
      fio_hash_seek_aux h key pos i fuel = some j → j ≤ h.mask := by
  intro fuel
  induction fuel with
  | zero => intro pos i j _ hj; simp [fio_hash_seek_aux] at hj
  | succ f ih =>
    intro pos i j hpos hj
    by_cases hm : slotMatchB h key pos
    · simp [fio_hash_seek_aux, hm] at hj
      omega
    · simp only [fio_hash_seek_aux, if_neg hm] at hj
      exact ih _ _ _ (probeIndex_le_mask h key i) hj

theorem fio_hash_seek_le_mask (h : HashS) (key j : Nat)
    (hj : fio_hash_seek h key = some j) : j ≤ h.mask :=
  seek_aux_le_mask h key _ _ _ _ Nat.and_le_right hj

theorem fio_hash_seek_congr (h h' : HashS) (key : Nat)
    (hm : h'.mask = h.mask) (hc : h'.capa = h.capa)
    (hs : ∀ j, (slotAt h' j).key = (slotAt h j).key) :
    fio_hash_seek h' key = fio_hash_seek h key := by
  have hmatch : ∀ j, slotMatchB h' key j = slotMatchB h key j := by
    intro j; simp [slotMatchB, hs j]
  have haux : ∀ fuel pos i,
      fio_hash_seek_aux h' key pos i fuel = fio_hash_seek_aux h key pos i fuel := by
    intro fuel
    induction fuel with
    | zero => intro pos i; simp [fio_hash_seek_aux]
    | succ f ih =>
      intro pos i
      simp only [fio_hash_seek_aux, hmatch, probeIndex_congr h h' key i hm, ih]
  rw [fio_hash_seek, fio_hash_seek, seekLimit_congr h h' hc, hm, haux]

theorem find?_mono {α : Type} (p q : α → Bool) (l : List α) (a : α)
    (hfind : l.find? p = some a) (hqa : q a = true)
    (himp : ∀ x, q x = true → p x = true) : l.find? q = some a := by
  induction l with
  | nil => simp at hfind
  | cons x t ih =>
    by_cases hx : p x = true
    · rw [List.find?_cons_of_pos _ hx] at hfind
      obtain rfl : x = a := by injection hfind
      rw [List.find?_cons_of_pos _ hqa]
    · rw [List.find?_cons_of_neg _ hx] at hfind
      have hqx : ¬q x = true := fun hq => hx (himp x hq)
      rw [List.find?_cons_of_neg _ hqx]
      exact ih hfind

/-- Stability of a successful seek under map edits that can only make slots
stop matching (and leave the found slot matching). -/
theorem seek_stable (h h' : HashS) (key j0 : Nat)
    (hm : h'.mask = h.mask) (hc : h'.capa = h.capa)
    (hmono : ∀ j, slotMatchB h' key j = true → slotMatchB h key j = true)
    (hj0 : slotMatchB h' key j0 = true)
    (hseek : fio_hash_seek h key = some j0)
    (hl : 2 ≤ seekLimit h) :
    fio_hash_seek h' key = some j0 := by
  have hl' : 2 ≤ seekLimit h' := by rw [seekLimit_congr h h' hc]; exact hl
  rw [fio_hash_seek_eq_find? h key hl] at hseek
  rw [fio_hash_seek_eq_find? h' key hl', seekLimit_congr h h' hc,
    specProbe_congr h h' key _ hm]
  exact find?_mono _ _ _ _ hseek hj0 hmono

/-! ## The inspected-slot trace of `fio_hash_seek` -/

theorem seek_trace_aux_eq (h : HashS) (key : Nat) :
    ∀ (fuel i : Nat),
      fio_hash_seek_trace_aux h key (probeIndex h key i) (i + 1) fuel =
        upToMatch h key (List.map (probeIndex h key) (List.range' i fuel)) := by
  intro fuel
  induction fuel with
  | zero => intro i; simp [fio_hash_seek_trace_aux, upToMatch]
  | succ f ih =>
    intro i
    rw [List.range'_succ, List.map_cons]
    by_cases hm : slotMatchB h key (probeIndex h key i)
    · simp [fio_hash_seek_trace_aux, upToMatch, hm]
    · simp only [fio_hash_seek_trace_aux, upToMatch, if_neg hm]
      rw [show i + 1 + 1 = (i + 1) + 1 by rfl]
      simpa using ih (i + 1)

theorem fio_hash_seek_trace_spec (h : HashS) (key : Nat) (hl : 2 ≤ seekLimit h) :
    fio_hash_seek_trace h key =
      (if slotMatchB h key (key &&& h.mask) then ([] : List Nat)
        else [key &&& h.mask]) ++
        upToMatch h key (specProbe h key (seekLimit h - 1)) := by
  obtain ⟨l, hl2⟩ : ∃ l, seekLimit h = l + 2 := ⟨seekLimit h - 2, by omega⟩
  rw [fio_hash_seek_trace, hl2]
  rw [show l + 2 - 1 = l + 1 by omega]
  rw [specProbe, List.range_eq_range', List.range'_succ, List.map_cons,
    probeIndex_zero]
  by_cases hm : slotMatchB h key (key &&& h.mask)
  · simp [fio_hash_seek_trace_aux, upToMatch, hm]
  · have h2 := seek_trace_aux_eq h key (l + 1) 0
    norm_num at h2
    have h1 : fio_hash_seek_trace_aux h key (key &&& h.mask) 0 (l + 2) =
        (key &&& h.mask) :: fio_hash_seek_trace_aux h key (probeIndex h key 0) 1 (l + 1) := by
      simp [fio_hash_seek_trace_aux, hm]
    rw [h1, h2]
    rw [List.range'_succ, List.map_cons, probeIndex_zero]
    simp [upToMatch, hm]

theorem seek_trace_aux_length (h : HashS) (key : Nat) :
    ∀ (fuel pos i : Nat),
      (fio_hash_seek_trace_aux h key pos i fuel).length ≤ fuel := by
  intro fuel
  induction fuel with
  | zero => intro pos i; simp [fio_hash_seek_trace_aux]
  | succ f ih =>
    intro pos i
    by_cases hm : slotMatchB h key pos
    · simp [fio_hash_seek_trace_aux, hm]
    · simp only [fio_hash_seek_trace_aux, if_neg hm, List.length_cons]
      have := ih (probeIndex h key i) (i + 1)
      omega

theorem seek_aux_none_iff (h : HashS) (key : Nat) :
    ∀ (fuel pos i : Nat),
      fio_hash_seek_aux h key pos i fuel = none ↔
        (fio_hash_seek_trace_aux h key pos i fuel).length = fuel ∧
          ∀ j ∈ fio_hash_seek_trace_aux h key pos i fuel,
            slotMatchB h key j = false := by
  intro fuel
  induction fuel with
  | zero => intro pos i; simp [fio_hash_seek_aux, fio_hash_seek_trace_aux]
  | succ f ih =>
    intro pos i
    by_cases hm : slotMatchB h key pos
    · simp [fio_hash_seek_aux, fio_hash_seek_trace_aux, hm]
    · simp only [fio_hash_seek_aux, fio_hash_seek_trace_aux, if_neg hm,
        List.length_cons, List.mem_cons]
      rw [ih (probeIndex h key i) (i + 1)]
      constructor
      · rintro ⟨hlen, hall⟩
        refine ⟨by omega, ?_⟩
        rintro j (rfl | hj)
        · exact Bool.eq_false_iff.mpr hm
        · exact hall j hj
      · rintro ⟨hlen, hall⟩
        exact ⟨by omega, fun j hj => hall j (Or.inr hj)⟩

theorem fio_hash_seek_trace_length (h : HashS) (key : Nat) :
    (fio_hash_seek_trace h key).length ≤ seekLimit h :=
  seek_trace_aux_length h key (seekLimit h) _ 0

theorem fio_hash_seek_none_iff (h : HashS) (key : Nat) :
    fio_hash_seek h key = none ↔
      (fio_hash_seek_trace h key).length = seekLimit h ∧
        ∀ j ∈ fio_hash_seek_trace h key, slotMatchB h key j = false :=
  seek_aux_none_iff h key (seekLimit h) _ 0

/-- For power-of-two capacities the code's loop bound
`capa > 256 ? 256 : capa >> 1` equals `min (capa / 2) 256`. -/
theorem seekLimit_eq_min (h : HashS) (ht : ∃ t, h.capa = 2 ^ t) :
    seekLimit h = min (h.capa / 2) FIO_HASH_MAX_MAP_SEEK := by
  obtain ⟨t, hc⟩ := ht
  unfold seekLimit FIO_HASH_MAX_MAP_SEEK
  by_cases hgt : h.capa > 256
  · rw [if_pos hgt]
    have ht9 : 9 ≤ t := by
      by_contra hlt
      push_neg at hlt
      have hle : h.capa ≤ 2 ^ 8 := by
        rw [hc]
        exact Nat.pow_le_pow_right (by norm_num) (by omega)
      norm_num at hle
      omega
    have h512 : 2 ^ 9 ≤ h.capa := by
      rw [hc]
      exact Nat.pow_le_pow_right (by norm_num) ht9
    norm_num at h512
    omega
  · rw [if_neg hgt]
    push_neg at hgt
    omega

theorem seekLimit_ge_8 (h : HashS) (hc : 16 ≤ h.capa) : 8 ≤ seekLimit h := by
  unfold seekLimit FIO_HASH_MAX_MAP_SEEK
  by_cases hgt : h.capa > 256
  · rw [if_pos hgt]; omega
  · rw [if_neg hgt]; omega

/-! ## Slot update lemmas -/

theorem getD_set_self (l : List MapInfo) (j : Nat) (s : MapInfo)
    (hj : j < l.length) : (l.set j s).getD j ⟨0, 0⟩ = s := by
  simp [List.getD_eq_getElem?_getD, List.getElem?_set_self hj]

theorem getD_set_ne (l : List MapInfo) (j x : Nat) (s : MapInfo) (hx : x ≠ j) :
    (l.set j s).getD x ⟨0, 0⟩ = l.getD x ⟨0, 0⟩ := by
  simp [List.getD_eq_getElem?_getD, List.getElem?_set_ne (Ne.symm hx)]

theorem slotAt_of_data_set_self (h h' : HashS) (j : Nat) (s : MapInfo)
    (hd : h'.data = h.data.set j s) (hj : j < h.data.length) :
    slotAt h' j = s := by
  rw [slotAt, hd, getD_set_self _ _ _ hj]

theorem slotAt_of_data_set_ne (h h' : HashS) (j x : Nat) (s : MapInfo)
    (hd : h'.data = h.data.set j s) (hx : x ≠ j) :
    slotAt h' x = slotAt h x := by
  rw [slotAt, hd, getD_set_ne _ _ _ _ hx, slotAt]

/-! ## Seek results match, and are preserved by the insert/rehash writes -/

theorem seek_aux_some_match (h : HashS) (key : Nat) :
    ∀ (fuel pos i j : Nat), fio_hash_seek_aux h key pos i fuel = some j →
      slotMatchB h key j = true := by
  intro fuel
  induction fuel with
  | zero => intro pos i j hj; simp [fio_hash_seek_aux] at hj
  | succ f ih =>
    intro pos i j hj
    by_cases hm : slotMatchB h key pos
    · simp [fio_hash_seek_aux, hm] at hj
      exact hj ▸ hm
    · simp only [fio_hash_seek_aux, if_neg hm] at hj
      exact ih _ _ _ hj

theorem fio_hash_seek_some_match (h : HashS) (key j : Nat)
    (hj : fio_hash_seek h key = some j) : slotMatchB h key j = true :=
  seek_aux_some_match h key _ _ _ _ hj

/-- Writing a slot whose key copy was `0` with a nonzero key `s.key` keeps
the successful seek of every key other than `s.key` (and `0`) intact: the
write can only turn the guard off at the written slot, and the slot a key
was found at keeps holding that key. -/
theorem seek_preserved_of_fill (h h' : HashS) (j j0 key : Nat) (s : MapInfo)
    (hm : h'.mask = h.mask) (hc : h'.capa = h.capa)
    (hd : h'.data = h.data.set j s)
    (hempty : (slotAt h j).key = 0)
    (hsk : s.key ≠ 0) (hks : key ≠ s.key) (hk0 : key ≠ 0)
    (hseek : fio_hash_seek h key = some j0)
    (hj0 : (slotAt h j0).key = key)
    (hl : 2 ≤ seekLimit h) :
    fio_hash_seek h' key = some j0 := by
  have hne : j0 ≠ j := by
    intro e
    rw [e, hempty] at hj0
    exact hk0 hj0.symm
  apply seek_stable h h' key j0 hm hc ?mono ?mtch hseek hl
  case mono =>
    intro x hx
    by_cases hxj : x = j
    · rw [hxj] at hx ⊢
      by_cases hlt : j < h.data.length
      · rw [slotMatchB, slotAt_of_data_set_self h h' j s hd hlt] at hx
        simp at hx
        rcases hx with hx | hx
        · exact absurd hx hsk
        · exact absurd hx.symm hks
      · have : h'.data = h.data := by
          rw [hd, List.set_eq_of_length_le (by omega)]
        rw [slotMatchB, slotAt, this, ← slotAt] at hx
        exact hx
    · rwa [slotMatchB, slotAt_of_data_set_ne h h' j x s hd hxj] at hx
  case mtch =>
    rw [slotMatchB, slotAt_of_data_set_ne h h' j j0 s hd hne, hj0]
    simp

/-- Rewriting the very slot a key's seek returns, with a key copy that still
matches (`0` or the key itself), keeps that seek result. -/
theorem seek_preserved_of_self_write (h h' : HashS) (j0 key : Nat) (s : MapInfo)
    (hm : h'.mask = h.mask) (hc : h'.capa = h.capa)
    (hd : h'.data = h.data.set j0 s)
    (hsk : s.key = 0 ∨ s.key = key)
    (hseek : fio_hash_seek h key = some j0)
    (hl : 2 ≤ seekLimit h) :
    fio_hash_seek h' key = some j0 := by
  apply seek_stable h h' key j0 hm hc ?mono ?mtch hseek hl
  case mono =>
    intro x hx
    by_cases hxj : x = j0
    · rw [hxj]
      exact fio_hash_seek_some_match h key j0 hseek
    · rwa [slotMatchB, slotAt_of_data_set_ne h h' j0 x s hd hxj] at hx
  case mtch =>
    by_cases hlt : j0 < h.data.length
    · rw [slotMatchB, slotAt_of_data_set_self h h' j0 s hd hlt]
      rcases hsk with hsk | hsk <;> simp [hsk]
    · have he : h'.data = h.data := by
        rw [hd, List.set_eq_of_length_le (by omega)]
      rw [slotMatchB, slotAt, he, ← slotAt]
      exact fio_hash_seek_some_match h key j0 hseek

/-- Under the invariant, seeking a nonzero key that is not in the table
returns a fully empty slot (this is why a fresh insert takes the
fresh-object branch). -/
theorem seek_fresh_slot_empty (h : HashS) (linv : ListInv h)
    (hmap : MapPartial h h.items) (key j : Nat)
    (hk0 : key ≠ 0) (hfresh : ∀ n ∈ h.items, n.key ≠ key)
    (hseek : fio_hash_seek h key = some j) :
    (slotAt h j).key = 0 ∧ (slotAt h j).container = 0 := by
  have hjlt : j < h.capa := by
    have := fio_hash_seek_le_mask h key j hseek
    have := linv.capa_mask
    omega
  have hmatch := fio_hash_seek_some_match h key j hseek
  rw [slotMatchB] at hmatch
  simp at hmatch
  rcases hmatch with hz | hk
  · exact ⟨hz, hmap.slot_empty j hjlt hz⟩
  · exfalso
    have hnz : (slotAt h j).key ≠ 0 := by rw [hk]; exact hk0
    obtain ⟨n, hn, hnk, _⟩ := hmap.slot_live j hjlt hnz
    exact hfresh n hn (by rw [hnk, hk])

/-! ## Fresh insert preserves the invariant -/

/-- A successful seek for a fresh nonzero key, followed by `insertAt` with a
nonzero object, takes the fresh-object branch: it appends a node at the tail
of the container list, fills the (empty) found slot, bumps `count`, returns
`NULL`, and re-establishes the invariant. -/
theorem insert_fresh_step (h : HashS) (linv : ListInv h)
    (hmap : MapPartial h h.items) (key obj j : Nat)
    (hk0 : key ≠ 0) (hobj : obj ≠ 0)
    (hfresh : ∀ n ∈ h.items, n.key ≠ key)
    (hseek : fio_hash_seek h key = some j) :
    ∃ h', insertAt h j key obj = (0, h') ∧ StInv h' ∧
      h'.items = h.items ++ [⟨h.nextId, key, obj⟩] ∧
      h'.count = h.count + 1 ∧ h'.capa = h.capa ∧ h'.mask = h.mask := by
  obtain ⟨hje, hjc⟩ := seek_fresh_slot_empty h linv hmap key j hk0 hfresh hseek
  have hjlt : j < h.data.length := by
    have h1 := fio_hash_seek_le_mask h key j hseek
    have h2 := linv.capa_mask
    have h3 := linv.data_len
    omega
  have hl2 : 2 ≤ seekLimit h := by
    have := seekLimit_ge_8 h linv.capa_ge
    omega
  refine ⟨{ h with
      items := h.items ++ [⟨h.nextId, key, obj⟩]
      nextId := h.nextId + 1
      data := h.data.set j ⟨key, h.nextId⟩
      count := h.count + 1 }, ?_, ?_, rfl, rfl, rfl, rfl⟩
  · rw [insertAt, hjc]
    simp [fio_hash_ls_unshift, hobj]
  · constructor
    · -- ListInv
      constructor
      · show (h.data.set j ⟨key, h.nextId⟩).length = h.capa
        rw [List.length_set]
        exact linv.data_len
      · exact linv.capa_mask
      · exact linv.capa_ge
      · simp [linv.count_eq]
      · simp
      · intro n hn
        show 0 < n.id ∧ n.id < h.nextId + 1
        rcases List.mem_append.mp hn with hn | hn
        · have := linv.ids_pos n hn
          omega
        · have he : n = ⟨h.nextId, key, obj⟩ := List.mem_singleton.mp hn
          subst he
          have := linv.nextId_pos
          exact ⟨this, by show h.nextId < h.nextId + 1; omega⟩
      · rw [List.map_append, List.nodup_append]
        refine ⟨linv.ids_nodup, by simp, ?_⟩
        intro a ha hb
        simp at hb
        obtain ⟨m, hm, hma⟩ := List.mem_map.mp ha
        have := (linv.ids_pos m hm).2
        omega
      · intro n hn
        rcases List.mem_append.mp hn with hn | hn
        · exact linv.keys_nz n hn
        · have : n = ⟨h.nextId, key, obj⟩ := List.mem_singleton.mp hn
          subst this
          exact hk0
      · intro n hn
        rcases List.mem_append.mp hn with hn | hn
        · exact linv.objs_nz n hn
        · have : n = ⟨h.nextId, key, obj⟩ := List.mem_singleton.mp hn
          subst this
          exact hobj
      · rw [List.map_append, List.nodup_append]
        refine ⟨linv.keys_nodup, by simp, ?_⟩
        intro a ha hb
        simp at hb
        obtain ⟨m, hm, hma⟩ := List.mem_map.mp ha
        exact hfresh m hm (by rw [hma]; exact hb)
    · -- MapPartial
      constructor
      · intro n hn
        rcases List.mem_append.mp hn with hn | hn
        · obtain ⟨jn, hsn, hslotn⟩ := hmap.placed n hn
          have hnk0 : n.key ≠ 0 := linv.keys_nz n hn
          have hslotkey : (slotAt h jn).key = n.key := by rw [hslotn]
          have hjnj : jn ≠ j := by
            intro e
            rw [e, hje] at hslotkey
            exact hnk0 hslotkey.symm
          refine ⟨jn, ?_, ?_⟩
          · exact seek_preserved_of_fill h _ j jn n.key ⟨key, h.nextId⟩
              rfl rfl rfl hje hk0 (hfresh n hn) hnk0 hsn hslotkey hl2
          · rw [slotAt_of_data_set_ne h _ j jn ⟨key, h.nextId⟩ rfl hjnj]
            exact hslotn
        · have : n = ⟨h.nextId, key, obj⟩ := List.mem_singleton.mp hn
          subst this
          refine ⟨j, ?_, ?_⟩
          · exact seek_preserved_of_self_write h _ j key ⟨key, h.nextId⟩
              rfl rfl rfl (Or.inr rfl) hseek hl2
          · exact slotAt_of_data_set_self h _ j ⟨key, h.nextId⟩ rfl hjlt
      · intro x hx hnz
        by_cases hxj : x = j
        · rw [hxj, slotAt_of_data_set_self h _ j ⟨key, h.nextId⟩ rfl hjlt]
          exact ⟨⟨h.nextId, key, obj⟩, List.mem_append.mpr (Or.inr (by simp)),
            rfl, rfl⟩
        · rw [slotAt_of_data_set_ne h _ j x ⟨key, h.nextId⟩ rfl hxj] at hnz ⊢
          obtain ⟨n, hn, hnk, hnc⟩ := hmap.slot_live x hx hnz
          exact ⟨n, List.mem_append.mpr (Or.inl hn), hnk, hnc⟩
      · intro x hx hz
        by_cases hxj : x = j
        · rw [hxj, slotAt_of_data_set_self h _ j ⟨key, h.nextId⟩ rfl hjlt] at hz
          exact absurd hz hk0
        · rw [slotAt_of_data_set_ne h _ j x ⟨key, h.nextId⟩ rfl hxj] at hz ⊢
          exact hmap.slot_empty x hx hz

/-! ## Rehash -/

theorem two_mul_lor_one (m : Nat) : (2 * m) ||| 1 = 2 * m + 1 := by
  apply Nat.eq_of_testBit_eq
  intro i
  cases i with
  | zero =>
    rw [Nat.testBit_or, Nat.testBit_zero, Nat.testBit_zero, Nat.testBit_zero]
    have e1 : 2 * m % 2 = 0 := by omega
    have e2 : (2 * m + 1) % 2 = 1 := by omega
    simp [e1, e2]
  | succ n =>
    rw [Nat.testBit_or, Nat.testBit_succ, Nat.testBit_succ, Nat.testBit_succ]
    have e1 : 2 * m / 2 = m := by omega
    have e2 : (2 * m + 1) / 2 = m := by omega
    have e3 : (1 : Nat) / 2 = 0 := by norm_num
    rw [e1, e2, e3, Nat.zero_testBit]
    simp

theorem mask_double (m : Nat) : (m <<< 1) ||| 1 = 2 * m + 1 := by
  rw [Nat.shiftLeft_eq]
  have e : m * 2 ^ 1 = 2 * m := by ring
  rw [e, two_mul_lor_one]

theorem rehashGrow_capa (h : HashS) : (rehashGrow h).capa = 2 * h.mask + 2 := by
  show ((h.mask <<< 1) ||| 1) + 1 = _
  rw [mask_double]

theorem slotAt_replicate (h : HashS) (n x : Nat)
    (hd : h.data = List.replicate n (⟨0, 0⟩ : MapInfo)) :
    slotAt h x = ⟨0, 0⟩ := by
  rw [slotAt, hd, List.getD_eq_getElem?_getD, List.getElem?_replicate]
  by_cases hx : x < n <;> simp [hx]

theorem ListInv_setSlot (h : HashS) (j : Nat) (s : MapInfo) (linv : ListInv h) :
    ListInv (setSlot h j s) := by
  constructor
  · show (h.data.set j s).length = h.capa
    rw [List.length_set]
    exact linv.data_len
  · exact linv.capa_mask
  · exact linv.capa_ge
  · exact linv.count_eq
  · exact linv.nextId_pos
  · exact linv.ids_pos
  · exact linv.ids_nodup
  · exact linv.keys_nz
  · exact linv.objs_nz
  · exact linv.keys_nodup

theorem ListInv_rehashGrow (h : HashS) (linv : ListInv h) :
    ListInv (rehashGrow h) := by
  constructor
  · show (List.replicate (((h.mask <<< 1) ||| 1) + 1) (⟨0, 0⟩ : MapInfo)).length = _
    rw [List.length_replicate]
    rfl
  · rfl
  · show 16 ≤ ((h.mask <<< 1) ||| 1) + 1
    rw [mask_double]
    have h1 := linv.capa_ge
    have h2 := linv.capa_mask
    omega
  · exact linv.count_eq
  · exact linv.nextId_pos
  · exact linv.ids_pos
  · exact linv.ids_nodup
  · exact linv.keys_nz
  · exact linv.objs_nz
  · exact linv.keys_nodup

theorem MapPartial_rehashGrow_nil (h : HashS) : MapPartial (rehashGrow h) [] := by
  constructor
  · intro n hn
    cases hn
  · intro x _ hnz
    exact absurd (congrArg MapInfo.key (slotAt_replicate (rehashGrow h) _ x rfl)) hnz
  · intro x _ _
    exact congrArg MapInfo.container (slotAt_replicate (rehashGrow h) _ x rfl)

/-- The re-placement walk of `fio_hash_rehash`: if the bucket map holds
exactly the nodes of `pl`, the walked suffix is `rest`, and every placement
succeeds, the final state keeps the list untouched and holds the whole
container list, properly placed. -/
theorem rehashPlace_spec :
    ∀ (rest : List Node) (h : HashS) (pl : List Node),
      ListInv h → h.items = pl ++ rest → MapPartial h pl →
      ∀ h2, rehashPlace h rest = some h2 →
        h2.items = h.items ∧ h2.count = h.count ∧ h2.nextId = h.nextId ∧
        h2.capa = h.capa ∧ h2.mask = h.mask ∧
        ListInv h2 ∧ MapPartial h2 h2.items := by
  intro rest
  induction rest with
  | nil =>
    intro h pl linv hitems hmap h2 hrun
    rw [rehashPlace] at hrun
    obtain rfl : h = h2 := by injection hrun
    rw [List.append_nil] at hitems
    exact ⟨rfl, rfl, rfl, rfl, rfl, linv, hitems ▸ hmap⟩
  | cons n rest ih =>
    intro h pl linv hitems hmap h2 hrun
    rw [rehashPlace] at hrun
    cases hseek : fio_hash_seek h n.key with
    | none =>
      rw [hseek] at hrun
      cases hrun
    | some j =>
      rw [hseek] at hrun
      have hl2 : 2 ≤ seekLimit h := by
        have := seekLimit_ge_8 h linv.capa_ge
        omega
      have hnmem : n ∈ h.items := by
        rw [hitems]
        exact List.mem_append_right _ (List.mem_cons_self n rest)
      have hnk0 : n.key ≠ 0 := linv.keys_nz n hnmem
      have hkeysplit := linv.keys_nodup
      rw [hitems, List.map_append, List.nodup_append] at hkeysplit
      obtain ⟨hplnd, hconsnd, hdisj⟩ := hkeysplit
      have hfreshpl : ∀ m ∈ pl, m.key ≠ n.key := by
        intro m hm he
        apply hdisj (List.mem_map_of_mem Node.key hm)
        rw [List.map_cons, he]
        exact List.mem_cons_self _ _
      have hjlt : j < h.data.length := by
        have h1 := fio_hash_seek_le_mask h n.key j hseek
        have h2 := linv.capa_mask
        have h3 := linv.data_len
        omega
      have hjcapa : j < h.capa := by
        have h2 := linv.data_len
        omega
      have hje : (slotAt h j).key = 0 := by
        have hmatch := fio_hash_seek_some_match h n.key j hseek
        rw [slotMatchB] at hmatch
        simp at hmatch
        rcases hmatch with hz | hk
        · exact hz
        · exfalso
          have hnz : (slotAt h j).key ≠ 0 := by rw [hk]; exact hnk0
          obtain ⟨m, hm, hmk, _⟩ := hmap.slot_live j hjcapa hnz
          exact hfreshpl m hm (by rw [hmk, hk])
      have hlinvset : ListInv (setSlot h j ⟨n.key, n.id⟩) :=
        ListInv_setSlot h j ⟨n.key, n.id⟩ linv
      have hitemsset : (setSlot h j ⟨n.key, n.id⟩).items = (pl ++ [n]) ++ rest := by
        show h.items = (pl ++ [n]) ++ rest
        rw [hitems, List.append_cons]
      have hmapset : MapPartial (setSlot h j ⟨n.key, n.id⟩) (pl ++ [n]) := by
        constructor
        · intro m hm
          rcases List.mem_append.mp hm with hm | hm
          · obtain ⟨jm, hsm, hslotm⟩ := hmap.placed m hm
            have hmmem : m ∈ h.items := by
              rw [hitems]
              exact List.mem_append.mpr (Or.inl hm)
            have hmk0 : m.key ≠ 0 := linv.keys_nz m hmmem
            have hslotkey : (slotAt h jm).key = m.key := by rw [hslotm]
            have hjmj : jm ≠ j := by
              intro e
              rw [e, hje] at hslotkey
              exact hmk0 hslotkey.symm
            refine ⟨jm, ?_, ?_⟩
            · exact seek_preserved_of_fill h _ j jm m.key ⟨n.key, n.id⟩
                rfl rfl rfl hje hnk0 (hfreshpl m hm) hmk0 hsm hslotkey hl2
            · rw [slotAt_of_data_set_ne h _ j jm ⟨n.key, n.id⟩ rfl hjmj]
              exact hslotm
          · have he : m = n := List.mem_singleton.mp hm
            subst he
            refine ⟨j, ?_, ?_⟩
            · exact seek_preserved_of_self_write h _ j m.key ⟨m.key, m.id⟩
                rfl rfl rfl (Or.inr rfl) hseek hl2
            · exact slotAt_of_data_set_self h _ j ⟨m.key, m.id⟩ rfl hjlt
        · intro x hx hnz
          by_cases hxj : x = j
          · rw [hxj, slotAt_of_data_set_self h _ j ⟨n.key, n.id⟩ rfl hjlt]
            exact ⟨n, List.mem_append.mpr (Or.inr (by simp)), rfl, rfl⟩
          · rw [slotAt_of_data_set_ne h _ j x ⟨n.key, n.id⟩ rfl hxj] at hnz ⊢
            obtain ⟨m, hm, hmk, hmc⟩ := hmap.slot_live x hx hnz
            exact ⟨m, List.mem_append.mpr (Or.inl hm), hmk, hmc⟩
        · intro x hx hz
          by_cases hxj : x = j
          · rw [hxj, slotAt_of_data_set_self h _ j ⟨n.key, n.id⟩ rfl hjlt] at hz
            exact absurd hz hnk0
          · rw [slotAt_of_data_set_ne h _ j x ⟨n.key, n.id⟩ rfl hxj] at hz ⊢
            exact hmap.slot_empty x hx hz
      obtain ⟨e1, e2, e3, e4, e5, l2, m2⟩ :=
        ih (setSlot h j ⟨n.key, n.id⟩) (pl ++ [n]) hlinvset hitemsset hmapset h2 hrun
      exact ⟨e1, e2, e3, e4, e5, l2, m2⟩

/-- Function `fio_hash_rehash` keeps the container list, the count and the allocator
counter, never shrinks the map, and (when it returns) re-establishes the
full invariant. -/
theorem rehash_spec :
    ∀ (fuel : Nat) (h : HashS), ListInv h →
      ∀ h2, fio_hash_rehash fuel h = some h2 →
        h2.items = h.items ∧ h2.count = h.count ∧ h2.nextId = h.nextId ∧
        StInv h2 ∧ h.capa ≤ h2.capa := by
  intro fuel
  induction fuel with
  | zero =>
    intro h _ h2 hrun
    cases hrun
  | succ f ih =>
    intro h linv h2 hrun
    rw [fio_hash_rehash] at hrun
    cases hplace : rehashPlace (rehashGrow h) (rehashGrow h).items with
    | some hp =>
      rw [hplace] at hrun
      obtain rfl : hp = h2 := by injection hrun
      obtain ⟨e1, e2, e3, e4, _, l2, m2⟩ :=
        rehashPlace_spec (rehashGrow h).items (rehashGrow h) []
          (ListInv_rehashGrow h linv) (by simp) (MapPartial_rehashGrow_nil h)
          hp hplace
      refine ⟨e1, e2, e3, ⟨l2, m2⟩, ?_⟩
      rw [e4, rehashGrow_capa]
      have := linv.capa_mask
      omega
    | none =>
      rw [hplace] at hrun
      obtain ⟨e1, e2, e3, st2, hcapa⟩ := ih (rehashGrow h)
        (ListInv_rehashGrow h linv) h2 hrun
      refine ⟨e1, e2, e3, st2, ?_⟩
      rw [rehashGrow_capa] at hcapa
      have := linv.capa_mask
      omega

/-! ## The seek/rehash retry loop of `fio_hash_insert` -/

theorem seekRetry_spec :
    ∀ (fuel : Nat) (h : HashS) (key : Nat), StInv h →
      ∀ j h1, seekRetry key fuel h = some (j, h1) →
        StInv h1 ∧ h1.items = h.items ∧ h1.count = h.count ∧
        h1.nextId = h.nextId ∧ h.capa ≤ h1.capa ∧
        fio_hash_seek h1 key = some j := by
  intro fuel
  induction fuel with
  | zero =>
    intro h key hst j h1 hrun
    rw [seekRetry] at hrun
    cases hseek : fio_hash_seek h key with
    | some j' =>
      rw [hseek] at hrun
      simp only [Option.some.injEq, Prod.mk.injEq] at hrun
      obtain ⟨rfl, rfl⟩ := hrun
      exact ⟨hst, rfl, rfl, rfl, Nat.le_refl _, hseek⟩
    | none =>
      rw [hseek] at hrun
      cases hrun
  | succ f ih =>
    intro h key hst j h1 hrun
    rw [seekRetry] at hrun
    cases hseek : fio_hash_seek h key with
    | some j' =>
      rw [hseek] at hrun
      simp only [Option.some.injEq, Prod.mk.injEq] at hrun
      obtain ⟨rfl, rfl⟩ := hrun
      exact ⟨hst, rfl, rfl, rfl, Nat.le_refl _, hseek⟩
    | none =>
      rw [hseek] at hrun
      cases hreh : fio_hash_rehash (f + 1) h with
      | none =>
        rw [hreh] at hrun
        cases hrun
      | some h' =>
        rw [hreh] at hrun
        obtain ⟨e1, e2, e3, st', hcapa⟩ := rehash_spec (f + 1) h hst.1 h' hreh
        obtain ⟨st1, f1, f2, f3, fcapa, fseek⟩ := ih h' key st' j h1 hrun
        exact ⟨st1, f1.trans e1, f2.trans e2, f3.trans e3,
          Nat.le_trans hcapa fcapa, fseek⟩

/-- Function `fio_hash_insert` of a fresh nonzero key with a nonzero object: returns
`NULL`, appends the pair at the tail of the container list, bumps `count`,
never shrinks the map, and preserves the invariant. -/
theorem fio_hash_insert_fresh_spec (fuel : Nat) (h : HashS) (key obj : Nat)
    (hst : StInv h) (hk0 : key ≠ 0) (hobj : obj ≠ 0)
    (hfresh : ∀ n ∈ h.items, n.key ≠ key) :
    ∀ old h2, fio_hash_insert fuel h key obj = some (old, h2) →
      old = 0 ∧ StInv h2 ∧
      h2.items.map (fun n => (n.key, n.obj)) =
        h.items.map (fun n => (n.key, n.obj)) ++ [(key, obj)] ∧
      h2.count = h.count + 1 ∧ h.capa ≤ h2.capa := by
  intro old h2 hrun
  rw [fio_hash_insert] at hrun
  cases hseek : fio_hash_seek h key with
  | some j =>
    simp only [hseek] at hrun
    obtain ⟨h', he, hst', hitems, hcount, hcapa, _⟩ :=
      insert_fresh_step h hst.1 hst.2 key obj j hk0 hobj hfresh hseek
    rw [he] at hrun
    simp only [Option.some.injEq, Prod.mk.injEq] at hrun
    obtain ⟨rfl, rfl⟩ := hrun
    refine ⟨rfl, hst', ?_, hcount, Nat.le_of_eq hcapa.symm⟩
    rw [hitems, List.map_append]
    rfl
  | none =>
    simp only [hseek] at hrun
    rw [if_neg (by simp [hobj])] at hrun
    cases hres : seekRetry key fuel h with
    | none =>
      simp only [hres] at hrun
      cases hrun
    | some p =>
      simp only [hres] at hrun
      obtain ⟨j, h1⟩ := p
      obtain ⟨st1, e1, e2, e3, hcapa1, hseek1⟩ :=
        seekRetry_spec fuel h key hst j h1 hres
      have hfresh1 : ∀ n ∈ h1.items, n.key ≠ key := by
        rw [e1]
        exact hfresh
      obtain ⟨h', he, hst', hitems, hcount, hcapa, _⟩ :=
        insert_fresh_step h1 st1.1 st1.2 key obj j hk0 hobj hfresh1 hseek1
      rw [he] at hrun
      simp only [Option.some.injEq, Prod.mk.injEq] at hrun
      obtain ⟨rfl, rfl⟩ := hrun
      refine ⟨rfl, hst', ?_, by omega, by omega⟩
      rw [hitems, List.map_append, e1]
      rfl

/-- Folding `fio_hash_insert` over pairwise-distinct nonzero keys with
nonzero values: the container list collects exactly the inserted pairs in
order, the count grows by one per pair, capacity never shrinks, and the
invariant is maintained. -/
theorem insertList_spec :
    ∀ (pairs : List (Nat × Nat)) (fuel : Nat) (h0 : HashS),
      StInv h0 →
      (∀ p ∈ pairs, p.1 ≠ 0 ∧ p.2 ≠ 0) →
      ((h0.items.map Node.key) ++ pairs.map Prod.fst).Nodup →
      ∀ h, insertList fuel h0 pairs = some h →
        StInv h ∧
        h.items.map (fun n => (n.key, n.obj)) =
          h0.items.map (fun n => (n.key, n.obj)) ++ pairs ∧
        h.count = h0.count + pairs.length ∧ h0.capa ≤ h.capa := by
  intro pairs
  induction pairs with
  | nil =>
    intro fuel h0 hst _ _ h hrun
    rw [insertList] at hrun
    obtain rfl : h0 = h := by injection hrun
    exact ⟨hst, by simp, rfl, Nat.le_refl _⟩
  | cons p rest ih =>
    intro fuel h0 hst hnz hnodup h hrun
    rw [insertList] at hrun
    cases hins : fio_hash_insert fuel h0 p.1 p.2 with
    | none =>
      simp only [hins] at hrun
      cases hrun
    | some q =>
      simp only [hins] at hrun
      obtain ⟨old, h1⟩ := q
      have hnodup' := hnodup
      rw [List.map_cons, List.nodup_append] at hnodup'
      obtain ⟨hnd0, hndc, hdisj⟩ := hnodup'
      have hfresh : ∀ n ∈ h0.items, n.key ≠ p.1 := by
        intro n hn he
        exact hdisj (List.mem_map_of_mem Node.key hn)
          (by rw [he] at *; exact List.mem_cons_self _ _)
      obtain ⟨hold0, hst1, hproj1, hcount1, hcapa1⟩ :=
        fio_hash_insert_fresh_spec fuel h0 p.1 p.2 hst
          (hnz p (List.mem_cons_self p rest)).1
          (hnz p (List.mem_cons_self p rest)).2 hfresh old h1 hins
      have hkeys1 : h1.items.map Node.key = h0.items.map Node.key ++ [p.1] := by
        have hc := congrArg (List.map Prod.fst) hproj1
        rw [List.map_append, List.map_map, List.map_map] at hc
        exact hc
      have hnodup1 : (h1.items.map Node.key ++ rest.map Prod.fst).Nodup := by
        rw [hkeys1, List.append_assoc, List.singleton_append]
        rw [List.map_cons] at hnodup
        exact hnodup
      have hnz1 : ∀ q ∈ rest, q.1 ≠ 0 ∧ q.2 ≠ 0 := by
        intro q hq
        exact hnz q (List.mem_cons_of_mem p hq)
      obtain ⟨hstF, hprojF, hcountF, hcapaF⟩ := ih fuel h1 hst1 hnz1 hnodup1 h hrun
      refine ⟨hstF, ?_, ?_, Nat.le_trans hcapa1 hcapaF⟩
      · rw [hprojF, hproj1, List.append_assoc, List.singleton_append]
      · rw [hcountF, hcount1, List.length_cons]
        omega

/-! ## Lookup of a live node -/

theorem find?_id_of_nodup (items : List Node) (n : Node) (hmem : n ∈ items)
    (hnodup : (items.map Node.id).Nodup) :
    items.find? (fun m => m.id == n.id) = some n := by
  induction items with
  | nil => cases hmem
  | cons x t ih =>
    rcases List.mem_cons.mp hmem with rfl | hmem'
    · exact List.find?_cons_of_pos t (by simp)
    · have hxid : x.id ≠ n.id := by
        intro e
        rw [List.map_cons, List.nodup_cons] at hnodup
        exact hnodup.1 (e ▸ List.mem_map_of_mem Node.id hmem')
      rw [List.find?_cons_of_neg t (by simp [hxid])]
      rw [List.map_cons, List.nodup_cons] at hnodup
      exact ih hmem' hnodup.2

/-- Under the invariant, `fio_hash_find` on a live node's key returns the
node's object. -/
theorem fio_hash_find_live (h : HashS) (hst : StInv h) (n : Node)
    (hmem : n ∈ h.items) : fio_hash_find h n.key = n.obj := by
  obtain ⟨j, hseek, hslot⟩ := hst.2.placed n hmem
  have hid0 : n.id ≠ 0 := by
    have := (hst.1.ids_pos n hmem).1
    omega
  rw [fio_hash_find]
  simp only [hseek, hslot]
  rw [if_neg (by simp [hid0])]
  simp only [containerObj, find?_id_of_nodup h.items n hmem hst.1.ids_nodup]

/-! ## Count is bounded by capacity -/

theorem StInv_length_le_capa (h : HashS) (hst : StInv h) :
    h.items.length ≤ h.capa := by
  classical
  set f : Node → Nat := fun n => (fio_hash_seek h n.key).getD 0 with hf
  have hkinj : ∀ x ∈ h.items, ∀ y ∈ h.items, x.key = y.key → x = y :=
    List.inj_on_of_nodup_map hst.1.keys_nodup
  have hfinj : ∀ x ∈ h.items, ∀ y ∈ h.items, f x = f y → x = y := by
    intro x hx y hy he
    obtain ⟨jx, hsx, hslotx⟩ := hst.2.placed x hx
    obtain ⟨jy, hsy, hsloty⟩ := hst.2.placed y hy
    have hfx : f x = jx := by rw [hf]; simp [hsx]
    have hfy : f y = jy := by rw [hf]; simp [hsy]
    have hj : jx = jy := by omega
    apply hkinj x hx y hy
    have hxy := hslotx
    rw [hj, hsloty] at hxy
    exact (congrArg MapInfo.key hxy).symm
  have hnd : (h.items.map f).Nodup :=
    List.Nodup.map_on hfinj (List.Nodup.of_map Node.id hst.1.ids_nodup)
  have hlt : ∀ a ∈ h.items.map f, a < h.capa := by
    intro a ha
    obtain ⟨m, hm, hma⟩ := List.mem_map.mp ha
    obtain ⟨jm, hsm, _⟩ := hst.2.placed m hm
    have : f m = jm := by rw [hf]; simp [hsm]
    have hle := fio_hash_seek_le_mask h m.key jm hsm
    have := hst.1.capa_mask
    omega
  have hsub : (h.items.map f).toFinset ⊆ Finset.range h.capa := by
    intro a ha
    rw [List.mem_toFinset] at ha
    rw [Finset.mem_range]
    exact hlt a ha
  have hcard := Finset.card_le_card hsub
  rw [List.toFinset_card_of_nodup hnd, Finset.card_range, List.length_map] at hcard
  exact hcard

/-! ## The invariant holds for a fresh table -/

theorem slotAt_new (x : Nat) : slotAt fio_hash_new x = ⟨0, 0⟩ :=
  slotAt_replicate fio_hash_new HASH_INITIAL_CAPACITY x rfl

theorem StInv_new : StInv fio_hash_new := by
  constructor
  · constructor
    · rfl
    · rfl
    · exact Nat.le_refl _
    · rfl
    · exact Nat.one_pos
    · intro n hn; cases hn
    · exact List.nodup_nil
    · intro n hn; cases hn
    · intro n hn; cases hn
    · exact List.nodup_nil
  · constructor
    · intro n hn; cases hn
    · intro x _ hnz
      exact absurd (congrArg MapInfo.key (slotAt_new x)) hnz
    · intro x _ _
      exact congrArg MapInfo.container (slotAt_new x)

/-! ## Claim C1 -/

/-- C1 counterexample: the two-element insertion sequence
`[(0, 5), (16, 7)]` has pairwise distinct keys, yet after it `find 0`
returns `7`, not the value `5` most recently set for key `0`: key 16 probes
slot 0 first, the key-0 entry's slot has key copy `0` and so looks empty,
and the insert of key 16 therefore replaces the key-0 node's value in
place. -/
theorem C1_counterexample :
    (insertList 0 fio_hash_new [(0, 5), (16, 7)]).map
        (fun h => fio_hash_find h 0) = some 7 ∧ (7 : Nat) ≠ 5 := by
  decide

/-- C1 (amended: the pairwise-distinct keys must also be nonzero): for every
sequence of upsert insertions with pairwise-distinct nonzero keys and no
deletions on a fresh table, `find k` after the sequence returns the value
inserted with `k` (each key is set exactly once, so that is its most
recently set value). -/
theorem C1_find_most_recent (pairs : List (Nat × Nat)) (fuel : Nat) (h : HashS)
    (hnz : ∀ p ∈ pairs, p.1 ≠ 0 ∧ p.2 ≠ 0)
    (hnd : (pairs.map Prod.fst).Nodup)
    (hrun : insertList fuel fio_hash_new pairs = some h) :
    ∀ p ∈ pairs, fio_hash_find h p.1 = p.2 := by
  obtain ⟨hst, hproj, _, _⟩ :=
    insertList_spec pairs fuel fio_hash_new StInv_new hnz (by simpa using hnd)
      h hrun
  have hproj' : h.items.map (fun n => (n.key, n.obj)) = pairs := by
    simpa using hproj
  intro p hp
  have hmem : p ∈ h.items.map (fun n => (n.key, n.obj)) := by
    rw [hproj']
    exact hp
  obtain ⟨n, hn, he⟩ := List.mem_map.mp hmem
  have hfind := fio_hash_find_live h hst n hn
  rw [← he]
  exact hfind

/-- C1 witness. -/
theorem C1_find_most_recent_witness :
    fio_hash_find ((insertList 0 fio_hash_new [(1, 10), (2, 20)]).getD
      fio_hash_new) 2 = 20 :=
  C1_find_most_recent [(1, 10), (2, 20)] 0
    ((insertList 0 fio_hash_new [(1, 10), (2, 20)]).getD fio_hash_new)
    (by decide) (by decide) (by decide) (2, 20) (by decide)

/-! ## Claim C2 -/

/-- C2 counterexample: insert key 17 into a fresh table (it lands in slot
1); seeking key 1 then inspects slot 1, recomputes the position with step
counter 0 (landing on slot 1 again), inspects it a second time, and only
then moves to slot 4: the inspected slot sequence is `[1, 1, 4]`, not the
spec's probe sequence `[1, 4]` — the slots probed are not exactly the
sequence `i_s`. -/
theorem C2_counterexample :
    (insertList 0 fio_hash_new [(17, 9)]).map
        (fun h => (fio_hash_seek_trace h 1, specSeekVisits h 1)) =
      some ([1, 1, 4], [1, 4]) ∧ ([1, 1, 4] : List Nat) ≠ [1, 4] := by
  decide

/-- C2 (amended): `fio_hash_seek` returns the slot at the first index of the
probe sequence `i_s = ((key & mask) + 3*s) & mask`, `s = 0, 1, 2, ...`,
whose key copy is 0 or equals the key — among the first `limit - 1` indices
of that sequence (a pure function of the key and the capacity) — and the
slots probed are exactly that sequence up to and including the first match,
EXCEPT that the initial index `i_0` is probed a second time when it does not
match (the first loop iteration recomputes the position with step counter
0 before advancing). -/
theorem C2_seek_first_match (h : HashS) (key : Nat) (hl : 2 ≤ seekLimit h) :
    fio_hash_seek h key =
        (specProbe h key (seekLimit h - 1)).find? (fun j => slotMatchB h key j) ∧
      fio_hash_seek_trace h key =
        (if slotMatchB h key (key &&& h.mask) then ([] : List Nat)
          else [key &&& h.mask]) ++
          upToMatch h key (specProbe h key (seekLimit h - 1)) :=
  ⟨fio_hash_seek_eq_find? h key hl, fio_hash_seek_trace_spec h key hl⟩

/-- C2 witness. -/
theorem C2_seek_first_match_witness :
    fio_hash_seek fio_hash_new 3 =
        (specProbe fio_hash_new 3 (seekLimit fio_hash_new - 1)).find?
          (fun j => slotMatchB fio_hash_new 3 j) ∧
      fio_hash_seek_trace fio_hash_new 3 =
        (if slotMatchB fio_hash_new 3 (3 &&& fio_hash_new.mask) then ([] : List Nat)
          else [3 &&& fio_hash_new.mask]) ++
          upToMatch fio_hash_new 3 (specProbe fio_hash_new 3 (seekLimit fio_hash_new - 1)) :=
  C2_seek_first_match fio_hash_new 3 (by decide)

/-! ## Claim C3 -/

/-- C3: on any table whose capacity is a power of two (every reachable
state), `fio_hash_seek` inspects at most `min (capa / 2) 256` slots, and
returns `NULL` exactly when it inspected that many slots and none of them
was empty or held the key. -/
theorem C3_seek_bound (h : HashS) (key : Nat) (ht : ∃ t, h.capa = 2 ^ t) :
    (fio_hash_seek_trace h key).length ≤
        min (h.capa / 2) FIO_HASH_MAX_MAP_SEEK ∧
      (fio_hash_seek h key = none ↔
        (fio_hash_seek_trace h key).length =
            min (h.capa / 2) FIO_HASH_MAX_MAP_SEEK ∧
          ∀ j ∈ fio_hash_seek_trace h key, slotMatchB h key j = false) := by
  rw [← seekLimit_eq_min h ht]
  exact ⟨fio_hash_seek_trace_length h key, fio_hash_seek_none_iff h key⟩

/-- C3 witness. -/
theorem C3_seek_bound_witness :
    (fio_hash_seek_trace fio_hash_new 5).length ≤
        min (fio_hash_new.capa / 2) FIO_HASH_MAX_MAP_SEEK ∧
      (fio_hash_seek fio_hash_new 5 = none ↔
        (fio_hash_seek_trace fio_hash_new 5).length =
            min (fio_hash_new.capa / 2) FIO_HASH_MAX_MAP_SEEK ∧
          ∀ j ∈ fio_hash_seek_trace fio_hash_new 5,
            slotMatchB fio_hash_new 5 j = false) :=
  C3_seek_bound fio_hash_new 5 ⟨4, by decide⟩

/-! ## Claim C6 -/

/-- C6 counterexample: inserting the 17 pairwise-distinct keys `0..16`
(key `k` mapped to `10*(k+1)`) into a fresh table: key 16 probes slot 0
first, which holds the key-0 entry and looks empty, so the insert replaces
that entry's value in place; no rehash is ever triggered, `capacity()` stays
16 (which is `< N = 17`), `count()` ends at 16, and `find 0` returns 170. -/
theorem C6_counterexample :
    (insertList 1 fio_hash_new
        ((List.range 17).map (fun k => (k, 10 * (k + 1))))).map
        (fun h => (fio_hash_capa h, fio_hash_count h, fio_hash_find h 0)) =
      some (16, 16, 170) ∧ (16 : Nat) < 17 := by
  decide

/-- C6 (amended: the distinct keys must also be nonzero): successfully
inserting `N > 16` pairwise-distinct nonzero keys into a fresh table leaves
`capacity() > 16` — capacity is modified only inside `fio_hash_rehash`, so
at least one rehash was triggered — with `capacity() ≥ N`, and every one of
the `N` keys findable with its correct value. -/
theorem C6_growth (pairs : List (Nat × Nat)) (fuel : Nat) (h : HashS)
    (hnz : ∀ p ∈ pairs, p.1 ≠ 0 ∧ p.2 ≠ 0)
    (hnd : (pairs.map Prod.fst).Nodup)
    (hN : 16 < pairs.length)
    (hrun : insertList fuel fio_hash_new pairs = some h) :
    16 < fio_hash_capa h ∧ pairs.length ≤ fio_hash_capa h ∧
      ∀ p ∈ pairs, fio_hash_find h p.1 = p.2 := by
  obtain ⟨hst, hproj, hcount, _⟩ :=
    insertList_spec pairs fuel fio_hash_new StInv_new hnz (by simpa using hnd)
      h hrun
  have hlen : h.items.length = pairs.length := by
    have hc := hst.1.count_eq
    have h0 : fio_hash_new.count = 0 := rfl
    omega
  have hle := StInv_length_le_capa h hst
  have hcapaN : pairs.length ≤ fio_hash_capa h := by
    rw [fio_hash_capa]
    omega
  refine ⟨by omega, hcapaN, ?_⟩
  exact C1_find_most_recent pairs fuel h hnz hnd hrun

/-- C6 witness: the 17 keys `1..17`. -/
theorem C6_growth_witness :
    16 < fio_hash_capa ((insertList 4 fio_hash_new
        ((List.range 17).map (fun k => (k + 1, 10 * (k + 1))))).getD fio_hash_new) ∧
      fio_hash_find ((insertList 4 fio_hash_new
        ((List.range 17).map (fun k => (k + 1, 10 * (k + 1))))).getD fio_hash_new)
        17 = 170 := by
  obtain ⟨h1, _, h3⟩ := C6_growth
    ((List.range 17).map (fun k => (k + 1, 10 * (k + 1)))) 4
    ((insertList 4 fio_hash_new
      ((List.range 17).map (fun k => (k + 1, 10 * (k + 1))))).getD fio_hash_new)
    (by decide) (by decide) (by decide) (by decide)
  exact ⟨h1, h3 (17, 170) (by decide)⟩

/-! ## Claim C9 -/

/-- C9: for key 0 the empty, tombstone and occupied slot states collapse,
shown on the concrete scenario: after inserting `(0, 5)` into a fresh table
the slot holds key copy `0` with a live container, and seeking key 16 (whose
probe sequence reaches that slot first) returns it as a match; upserting
`(16, 7)` therefore replaces the key-0 entry's value in place — it returns
the old value 5, creates no new entry, and leaves `count` at 1, with both
`find 0` and `find 16` now 7; finally deleting key 0 leaves slot 0 equal to
`⟨0, 0⟩`, identical to an empty slot. -/
theorem C9_key_zero_collapse :
    ((fio_hash_insert 0 fio_hash_new 0 5).map
        (fun q => (slotAt q.2 0, fio_hash_seek q.2 16)) =
      some (⟨0, 1⟩, some 0)) ∧
    (((fio_hash_insert 0 fio_hash_new 0 5).bind
        (fun q => fio_hash_insert 0 q.2 16 7)).map
        (fun q => (q.1, q.2.count, q.2.items.length,
          fio_hash_find q.2 0, fio_hash_find q.2 16)) =
      some (5, 1, 1, 7, 7)) ∧
    ((((fio_hash_insert 0 fio_hash_new 0 5).bind
        (fun q => fio_hash_insert 0 q.2 16 7)).bind
        (fun q => fio_hash_insert 0 q.2 0 0)).map
        (fun q => (q.1, slotAt q.2 0, q.2.count)) =
      some (7, ⟨0, 0⟩, 0)) := by
  decide

/-! ## Claim C10 -/

/-- C10: when seek fails (probe bound exhausted) and the upsert's object is
`NULL` — a delete of an absent key — `fio_hash_insert` returns `NULL`
immediately with the state returned unchanged: no rehash is invoked (the
result holds for every fuel, zero included), and count, mask, capacity,
bucket map and ordered list are all exactly those of the input state. -/
theorem C10_delete_absent_seek_failed (h : HashS) (key fuel : Nat)
    (hseek : fio_hash_seek h key = none) :
    fio_hash_insert fuel h key 0 = some (0, h) := by
  rw [fio_hash_insert]
  simp only [hseek]
  rfl

/-- C10 witness: a completely full 16-slot table in which seeking key 17
exhausts the probe bound. -/
theorem C10_delete_absent_seek_failed_witness :
    fio_hash_insert 0 ((insertList 0 fio_hash_new
        ((List.range 15).map (fun k => (k + 1, k + 1)) ++ [(16, 90)])).getD
        fio_hash_new) 17 0 =
      some (0, (insertList 0 fio_hash_new
        ((List.range 15).map (fun k => (k + 1, k + 1)) ++ [(16, 90)])).getD
        fio_hash_new) :=
  C10_delete_absent_seek_failed _ 17 0 (by decide)

/-! ## Claim C8 -/

theorem eachSkip_spec (start_at : Nat) :
    ∀ (l : List Node) (i : Nat),
      (eachSkip start_at l i).1 = l.drop (start_at - i) ∧
      (eachSkip start_at l i).2 = i + min (start_at - i) l.length := by
  intro l
  induction l with
  | nil =>
    intro i
    rw [eachSkip]
    constructor
    · simp
    · simp
  | cons n rest ih =>
    intro i
    rw [eachSkip]
    by_cases hgt : start_at > i
    · rw [if_pos hgt]
      obtain ⟨e1, e2⟩ := ih (i + 1)
      constructor
      · rw [e1]
        have hd : start_at - i = (start_at - (i + 1)) + 1 := by omega
        rw [hd, List.drop_succ_cons]
      · rw [e2, List.length_cons]
        omega
    · rw [if_neg hgt]
      constructor
      · have hz : start_at - i = 0 := by omega
        simp [hz]
      · have hz : start_at - i = 0 := by omega
        simp [hz]

theorem eachLoop_spec (task : Nat → Nat → Int) :
    ∀ (l : List Node) (i : Nat),
      eachLoop task l i = i + (eachLoopVisits task l).length := by
  intro l
  induction l with
  | nil =>
    intro i
    rw [eachLoop, eachLoopVisits]
    simp
  | cons n rest ih =>
    intro i
    rw [eachLoop, eachLoopVisits]
    by_cases hstop : task n.key n.obj == -1
    · rw [if_pos hstop, if_pos hstop]
      simp
    · rw [if_neg hstop, if_neg hstop, ih (i + 1), List.length_cons]
      omega

/-- C8: for every table (in any state where `count` does not exceed the
number of linked nodes, as holds in every state the code produces) and every
`start_at`: if `start_at ≥ count`, `fio_hash_each` returns `count`
immediately and the visitor is never invoked; otherwise it returns
`start_at` plus the number of nodes the visitor was invoked on — iteration
stopping early (that node included in the count) when the visitor returns
the stop sentinel `-1`. -/
theorem C8_each_returns (h : HashS) (start_at : Nat) (task : Nat → Nat → Int)
    (hcl : h.count ≤ h.items.length) :
    (start_at ≥ h.count →
        fio_hash_each h start_at task = h.count ∧
        eachVisits h start_at task = []) ∧
      (start_at < h.count →
        fio_hash_each h start_at task =
          start_at + (eachVisits h start_at task).length) := by
  constructor
  · intro hge
    rw [fio_hash_each, if_pos hge, eachVisits, if_pos hge]
    exact ⟨rfl, rfl⟩
  · intro hlt
    have hnge : ¬start_at ≥ h.count := by omega
    obtain ⟨e1, e2⟩ := eachSkip_spec start_at h.items 0
    rw [fio_hash_each, if_neg hnge, eachVisits, if_neg hnge, e1, e2,
      eachLoop_spec task]
    have hmin : min (start_at - 0) h.items.length = start_at := by omega
    rw [hmin]
    omega

/-- C8 witness. -/
theorem C8_each_returns_witness :
    fio_hash_each ((insertList 0 fio_hash_new [(1, 10), (2, 20)]).getD
        fio_hash_new) 1 (fun _ _ => 0) =
      1 + (eachVisits ((insertList 0 fio_hash_new [(1, 10), (2, 20)]).getD
        fio_hash_new) 1 (fun _ _ => 0)).length :=
  (C8_each_returns ((insertList 0 fio_hash_new [(1, 10), (2, 20)]).getD
    fio_hash_new) 1 (fun _ _ => 0) (by decide)).2 (by decide)

/-! ## Claim C4 -/

/-- C4 (code bug, evaluated at the failing input): on the table
`{1 ↦ 5, 2 ↦ 6}`, `upsert(1, none)` returns the removed value 5, decrements
`count` to 1 and rewrites the slot to the tombstone `⟨1, 0⟩` — but the node
is NOT removed from the ordered list: `fio_hash_ls_remove` executes
`node->next->prev = node->prev->next; node->prev->next = node->next->prev;`,
and on a well-formed list both right-hand sides equal `node` itself, so both
assignments rewrite a link to its current value (`lsRemovePtr_wf_eq`) and
the freed node stays linked: the node list still has keys `[1, 2]` and
iteration from 0 still visits the deleted key 1. -/
theorem C4_delete_leaves_node_linked :
    ((insertList 0 fio_hash_new [(1, 5), (2, 6)]).bind
        (fun h => fio_hash_insert 0 h 1 0)).map
        (fun q => (q.1, q.2.count, q.2.items.map Node.key,
          (eachVisits q.2 0 (fun _ _ => 0)).map Node.key, slotAt q.2 1)) =
      some (5, 1, [1, 2], [1, 2], ⟨1, 0⟩) := by
  decide

/-! ## Claim C5 -/

/-- C5 (code bug, evaluated at the failing input): insert `(1, 10)` and
`(2, 20)`, delete key 1, re-insert `(1, 30)`.  Because `fio_hash_ls_remove`
never unlinks the node (see `lsRemovePtr_wf_eq`), the stale `(1, 10)` node
is still on the list when the new `(1, 30)` node is appended: `count` is 2
but iteration visits `(1, 10), (2, 20), (1, 30)` — the deleted entry is
still visited in its old position, instead of the claimed live-entries-only
`(2, 20), (1, 30)` order. -/
theorem C5_delete_reinsert_iteration :
    (((insertList 0 fio_hash_new [(1, 10), (2, 20)]).bind
        (fun h => fio_hash_insert 0 h 1 0)).bind
        (fun q => fio_hash_insert 0 q.2 1 30)).map
        (fun q => (q.2.count, q.2.items.map (fun n => (n.key, n.obj)),
          (eachVisits q.2 0 (fun _ _ => 0)).map (fun n => (n.key, n.obj)))) =
      some (2, [(1, 10), (2, 20), (1, 30)], [(1, 10), (2, 20), (1, 30)]) := by
  decide

/-! ## Claim C7 -/

/-- C7: on any invariant-satisfying table, insert a fresh nonzero key `k`
with value `v1` (the first insert succeeding, rehashes allowed); then
`upsert(k, none)` finds the slot `k` was placed at, returns `v1` and
tombstones exactly that slot (`⟨k, 0⟩`), leaving capacity and mask
untouched; then `upsert(k, v2)` succeeds WITHOUT triggering a rehash — it
succeeds even with zero fuel — reusing the very slot vacated by the delete,
with capacity and mask still those of the state after the first insert, and
`find k` afterwards returns `v2`. -/
theorem C7_tombstone_reuse (h0 : HashS) (k v1 v2 fuel old1 : Nat) (h1 : HashS)
    (hst : StInv h0) (hk0 : k ≠ 0) (hv1 : v1 ≠ 0) (hv2 : v2 ≠ 0)
    (hfresh : ∀ n ∈ h0.items, n.key ≠ k)
    (hins1 : fio_hash_insert fuel h0 k v1 = some (old1, h1)) :
    ∃ j h2 h3,
      fio_hash_seek h1 k = some j ∧
      fio_hash_insert 0 h1 k 0 = some (v1, h2) ∧
      slotAt h2 j = ⟨k, 0⟩ ∧ h2.capa = h1.capa ∧ h2.mask = h1.mask ∧
      fio_hash_insert 0 h2 k v2 = some (0, h3) ∧
      slotAt h3 j = ⟨k, h2.nextId⟩ ∧
      h3.capa = h1.capa ∧ h3.mask = h1.mask ∧
      fio_hash_find h3 k = v2 := by
  obtain ⟨-, st1, hproj1, -, -⟩ :=
    fio_hash_insert_fresh_spec fuel h0 k v1 hst hk0 hv1 hfresh old1 h1 hins1
  have hmem : (k, v1) ∈ h1.items.map (fun n => (n.key, n.obj)) := by
    rw [hproj1]
    exact List.mem_append.mpr (Or.inr (List.mem_singleton.mpr rfl))
  obtain ⟨n1, hn1, he1⟩ := List.mem_map.mp hmem
  have hn1k : n1.key = k := congrArg Prod.fst he1
  have hn1v : n1.obj = v1 := congrArg Prod.snd he1
  obtain ⟨j, hseek1, hslot1⟩ := st1.2.placed n1 hn1
  rw [hn1k] at hseek1 hslot1
  have hid0 : n1.id ≠ 0 := by
    have := (st1.1.ids_pos n1 hn1).1
    omega
  have hjlen : j < h1.data.length := by
    have hle := fio_hash_seek_le_mask h1 k j hseek1
    have hcm := st1.1.capa_mask
    have hdl := st1.1.data_len
    omega
  have hl2 : 2 ≤ seekLimit h1 := by
    have := seekLimit_ge_8 h1 st1.1.capa_ge
    omega
  have hcobj : containerObj h1 (slotAt h1 j).container = v1 := by
    rw [hslot1]
    show containerObj h1 n1.id = v1
    rw [containerObj, show h1.items.find? (fun n => n.id == n1.id) = some n1 from
      find?_id_of_nodup h1.items n1 hn1 st1.1.ids_nodup]
    exact hn1v
  have hcontne : ((slotAt h1 j).container == 0) = false := by
    rw [hslot1]
    show (n1.id == 0) = false
    simp [hid0]
  have hdel : fio_hash_insert 0 h1 k 0 =
      some (v1, { h1 with
        count := h1.count - 1
        items := fio_hash_ls_remove h1.items
        data := h1.data.set j ⟨k, 0⟩ }) := by
    rw [fio_hash_insert]
    simp only [hseek1, insertAt, hcontne, hcobj]
    rfl
  set h2 : HashS := { h1 with
      count := h1.count - 1
      items := fio_hash_ls_remove h1.items
      data := h1.data.set j ⟨k, 0⟩ } with hh2
  have hslot2 : slotAt h2 j = ⟨k, 0⟩ :=
    slotAt_of_data_set_self h1 h2 j ⟨k, 0⟩ rfl hjlen
  have hkeys2 : ∀ x, (slotAt h2 x).key = (slotAt h1 x).key := by
    intro x
    by_cases hxj : x = j
    · rw [hxj, hslot2, hslot1]
    · rw [slotAt_of_data_set_ne h1 h2 j x ⟨k, 0⟩ rfl hxj]
  have hseek2 : fio_hash_seek h2 k = some j := by
    rw [fio_hash_seek_congr h1 h2 k rfl rfl hkeys2]
    exact hseek1
  have hl2' : 2 ≤ seekLimit h2 := by
    rw [seekLimit_congr h1 h2 rfl]
    exact hl2
  have hjlen2 : j < h2.data.length := by
    show j < (h1.data.set j ⟨k, 0⟩).length
    rw [List.length_set]
    exact hjlen
  have hcont2 : ((slotAt h2 j).container == 0) = true := by
    rw [hslot2]
    rfl
  have hins3 : fio_hash_insert 0 h2 k v2 =
      some (0, { h2 with
        items := fio_hash_ls_unshift h2.items ⟨h2.nextId, k, v2⟩
        nextId := h2.nextId + 1
        data := h2.data.set j ⟨k, h2.nextId⟩
        count := h2.count + 1 }) := by
    rw [fio_hash_insert]
    simp only [hseek2, insertAt, hcont2, if_true]
    rw [if_neg (by simp [hv2])]
  set h3 : HashS := { h2 with
      items := fio_hash_ls_unshift h2.items ⟨h2.nextId, k, v2⟩
      nextId := h2.nextId + 1
      data := h2.data.set j ⟨k, h2.nextId⟩
      count := h2.count + 1 } with hh3
  have hslot3 : slotAt h3 j = ⟨k, h2.nextId⟩ :=
    slotAt_of_data_set_self h2 h3 j ⟨k, h2.nextId⟩ rfl hjlen2
  have hseek3 : fio_hash_seek h3 k = some j :=
    seek_preserved_of_self_write h2 h3 j k ⟨k, h2.nextId⟩ rfl rfl rfl
      (Or.inr rfl) hseek2 hl2'
  have hnextne : h2.nextId ≠ 0 := by
    have := st1.1.nextId_pos
    show h1.nextId ≠ 0
    omega
  have hids3 : (h3.items.map Node.id).Nodup := by
    show ((h1.items ++ [(⟨h1.nextId, k, v2⟩ : Node)]).map Node.id).Nodup
    rw [List.map_append, List.nodup_append]
    refine ⟨st1.1.ids_nodup, by simp, ?_⟩
    intro a ha hb
    simp at hb
    obtain ⟨m, hm, hma⟩ := List.mem_map.mp ha
    have := (st1.1.ids_pos m hm).2
    omega
  have hm3 : (⟨h2.nextId, k, v2⟩ : Node) ∈ h3.items := by
    show (⟨h2.nextId, k, v2⟩ : Node) ∈ h2.items ++ [⟨h2.nextId, k, v2⟩]
    exact List.mem_append.mpr (Or.inr (List.mem_singleton.mpr rfl))
  have hfind3 : fio_hash_find h3 k = v2 := by
    rw [fio_hash_find]
    simp only [hseek3, hslot3]
    rw [if_neg (by simp [hnextne])]
    simp only [containerObj, show h3.items.find? (fun n => n.id == h2.nextId) =
      some ⟨h2.nextId, k, v2⟩ from
        find?_id_of_nodup h3.items ⟨h2.nextId, k, v2⟩ hm3 hids3]
  exact ⟨j, h2, h3, hseek1, hdel, hslot2, rfl, rfl, hins3, hslot3, rfl, rfl,
    hfind3⟩

/-- C7 witness. -/
theorem C7_tombstone_reuse_witness :
    ∃ j h2 h3,
      fio_hash_seek ((fio_hash_insert 0 fio_hash_new 5 11).getD
        (0, fio_hash_new)).2 5 = some j ∧
      fio_hash_insert 0 ((fio_hash_insert 0 fio_hash_new 5 11).getD
        (0, fio_hash_new)).2 5 0 = some (11, h2) ∧
      slotAt h2 j = ⟨5, 0⟩ ∧
      h2.capa = ((fio_hash_insert 0 fio_hash_new 5 11).getD
        (0, fio_hash_new)).2.capa ∧
      h2.mask = ((fio_hash_insert 0 fio_hash_new 5 11).getD
        (0, fio_hash_new)).2.mask ∧
      fio_hash_insert 0 h2 5 12 = some (0, h3) ∧
      slotAt h3 j = ⟨5, h2.nextId⟩ ∧
      h3.capa = ((fio_hash_insert 0 fio_hash_new 5 11).getD
        (0, fio_hash_new)).2.capa ∧
      h3.mask = ((fio_hash_insert 0 fio_hash_new 5 11).getD
        (0, fio_hash_new)).2.mask ∧
      fio_hash_find h3 5 = 12 :=
  C7_tombstone_reuse fio_hash_new 5 11 12 0 0
    ((fio_hash_insert 0 fio_hash_new 5 11).getD (0, fio_hash_new)).2
    StInv_new (by decide) (by decide) (by decide)
    (by intro n hn; cases hn) (by decide)

end FioHash
